import Mathlib

/-!
Shallow embedding of `src/proxy.c` (a concurrent HTTP/1.0 caching proxy).

C strings are modelled as `List Char` (the characters before the
terminating NUL).  C `int` fields (`content_size`, `current_size`,
`access_time`, the global `access_counter`, `total_size`) are modelled as
`Int`: signed overflow is undefined behaviour in C, so the unbounded model
covers exactly the defined executions.  The semaphore-based readers/writer
gate and thread interleavings are outside the shallow embedding; cache
operations are modelled as the sequential state transformers they perform
under the gate.  Response bodies are modelled as lists of bytes (`Nat`)
where their content matters and are omitted from cache nodes, whose
claims concern only keys, sizes and access times.
-/

namespace Proxy

/-- `#define MAX_CACHE_SIZE 1049000` (proxy.c line 5). -/
def MAX_CACHE_SIZE : Int := 1049000

/-- `#define MAX_OBJECT_SIZE 102400` (proxy.c line 6). -/
def MAX_OBJECT_SIZE : Int := 102400

/-- One `cache_node_t` (proxy.c lines 14-20).  The `content` buffer is not
modelled (no claim inspects cached bytes); `next_ptr` becomes the list
structure of `Cache.first`. -/
structure CacheNode where
  url : List Char
  content_size : Int
  access_time : Int
deriving DecidableEq, Repr

/-- The `cache_manager` (proxy.c lines 23-29) minus the semaphore fields,
which only implement the gate. -/
structure Cache where
  first : List CacheNode
  current_size : Int
deriving DecidableEq, Repr

/-- `initialize_cache` (proxy.c lines 77-83): empty list, size 0. -/
def initialize_cache : Cache := { first := [], current_size := 0 }

/-- `strncmp(s, t, n) == 0` for NUL-terminated C strings modelled as the
char lists before the NUL: comparison stops after `n` characters, at the
first difference, or at a joint end of string. -/
def strncmp0 : List Char → List Char → Nat → Bool
  | _, _, 0 => true
  | [], [], _ + 1 => true
  | [], _ :: _, _ + 1 => false
  | _ :: _, [], _ + 1 => false
  | a :: s, b :: t, n + 1 => a == b && strncmp0 s t n

/-- The match condition of `check_cache` (proxy.c lines 96-97):
`strcmp(current->url, uri) == 0 ||
 (uri[strlen(uri)-1] == '/' && strncmp(uri, current->url, strlen(uri)-1) == 0)`.
For the empty `uri` the C code reads `uri[-1]` (undefined behaviour); the
model makes the second disjunct false there.  All claims restrict to
non-empty query keys. -/
def cacheMatch (uri url : List Char) : Bool :=
  url == uri || (uri.getLast? == some '/' && strncmp0 uri url (uri.length - 1))

/-- The scan loop of `check_cache` (proxy.c lines 95-101): walk the list,
refresh the first matching node's `access_time` to the fresh tick `t`
(`update_counter()`), and return the refreshed node.  Returns the updated
list and the found node, `none` when no node matches. -/
def refreshFirst : List CacheNode → List Char → Int → List CacheNode × Option CacheNode
  | [], _, _ => ([], none)
  | e :: rest, uri, t =>
    if cacheMatch uri e.url then
      ({ e with access_time := t } :: rest, some { e with access_time := t })
    else
      (e :: (refreshFirst rest uri t).1, (refreshFirst rest uri t).2)

/-- `check_cache` (proxy.c lines 86-110).  `update_counter` (line 43,
`return ++access_counter`) runs only on a hit, so the counter advances to
`ctr + 1` exactly when a node matches.  Returns the new cache, the new
counter, and the found node. -/
def check_cache (c : Cache) (uri : List Char) (ctr : Int) : Cache × Int × Option CacheNode :=
  match refreshFirst c.first uri (ctr + 1) with
  | (l, some e) => ({ c with first := l }, ctr + 1, some e)
  | (_, none) => (c, ctr, none)

/-- The victim scan of `remove_oldest` (proxy.c lines 142-153): the C loop
keeps the first node attaining the minimal `access_time` (the comparison
is strict `<`, so later ties do not displace it).  Returns that node's
index and the node itself, `none` on the empty list. -/
def argminTime : List CacheNode → Option (Nat × CacheNode)
  | [] => none
  | e :: rest =>
    match argminTime rest with
    | none => some (0, e)
    | some (i, v) =>
      if v.access_time < e.access_time then some (i + 1, v) else some (0, e)

/-- `remove_oldest` (proxy.c lines 136-162): unlink the selected victim
and subtract its `content_size` from `current_size`; no-op on an empty
cache (line 140). -/
def remove_oldest (c : Cache) : Cache :=
  match argminTime c.first with
  | none => c
  | some (i, v) =>
    { first := c.first.eraseIdx i, current_size := c.current_size - v.content_size }

/-- The eviction loop of `add_to_cache` (proxy.c lines 119-120):
`while (cache->current_size + size > MAX_CACHE_SIZE) remove_oldest(cache);`.
The C loop has no empty-cache escape: when the guard holds on an empty
cache, `remove_oldest` returns immediately and the loop spins forever.
The model makes that divergence explicit with fuel: `none` means the C
loop does not terminate. -/
def evictLoop : Nat → Int → Cache → Option Cache
  | fuel, size, c =>
    if c.current_size + size ≤ MAX_CACHE_SIZE then some c
    else
      match fuel with
      | 0 => none
      | fuel' + 1 => evictLoop fuel' size (remove_oldest c)

/-- `add_to_cache` (proxy.c lines 113-133): reject oversized objects
(line 114), evict until the object fits, then push a fresh node onto the
front of the list, stamped `update_counter() = ctr + 1`, and grow
`current_size`.  Fuel `length + 1` is enough for the loop to either reach
its exit or reach the empty cache, where one more guard test decides
between exit and divergence (`none`). -/
def add_to_cache (c : Cache) (uri : List Char) (size : Int) (ctr : Int) :
    Option (Cache × Int) :=
  if size > MAX_OBJECT_SIZE then some (c, ctr)
  else
    match evictLoop (c.first.length + 1) size c with
    | none => none
    | some c2 =>
      some ({ first := { url := uri, content_size := size, access_time := ctr + 1 } :: c2.first,
              current_size := c2.current_size + size }, ctr + 1)

/-! ## The streaming tee of `process_request` (proxy.c lines 209-225) -/

/-- The per-miss streaming state: the staging buffer `object_buffer`
(modelled by the bytes staged so far — the C code writes each staged
chunk at offset `total_size`, which equals the staged length because a
skipped chunk is never followed by a staged one), the running
`total_size`, and the bytes forwarded to the client. -/
structure TeeState where
  staging : List Nat
  total_size : Int
  client : List Nat
deriving DecidableEq, Repr

/-- One iteration of the tee loop (proxy.c lines 213-219): stage the chunk
only when `total_size + n < MAX_OBJECT_SIZE` (line 214, strict `<`),
always add `n` to `total_size` and forward the chunk to the client. -/
def teeChunk (s : TeeState) (chunk : List Nat) : TeeState :=
  { staging :=
      if s.total_size + (chunk.length : Int) < MAX_OBJECT_SIZE then s.staging ++ chunk
      else s.staging,
    total_size := s.total_size + (chunk.length : Int),
    client := s.client ++ chunk }

/-- The whole tee loop, from `total_size = 0` and an empty staging buffer,
over the chunks `Rio_readlineb` returns until origin EOF. -/
def teeRun (chunks : List (List Nat)) : TeeState :=
  chunks.foldl teeChunk { staging := [], total_size := 0, client := [] }

/-- The admission guard of `process_request` (proxy.c line 223):
`add_to_cache` runs iff `total_size ≤ MAX_OBJECT_SIZE`. -/
def admitGuard (s : TeeState) : Bool := s.total_size ≤ MAX_OBJECT_SIZE

/-! ## Request-line parsing in `process_request` (proxy.c lines 188-201) -/

/-- The whitespace set of `sscanf` conversions. -/
def isWS (c : Char) : Bool := c == ' ' || c == '\t' || c == '\n' || c == '\r' || c == '\x0b' || c == '\x0c'

/-- Split into maximal non-whitespace words, accumulator-style. -/
def wordsAux : List Char → List Char → List (List Char)
  | [], acc => if acc.isEmpty then [] else [acc.reverse]
  | c :: rest, acc =>
    if isWS c then
      if acc.isEmpty then wordsAux rest [] else acc.reverse :: wordsAux rest []
    else wordsAux rest (c :: acc)

/-- `sscanf(buffer, "%s %s %s", method, uri, version)` (proxy.c line 189):
each `%s` skips whitespace and reads one word; at most three are
assigned.  The returned list holds the words actually assigned — the C
code ignores the count, leaving unassigned buffers with their previous
(indeterminate) contents. -/
def sscanfTokens (line : List Char) : List (List Char) :=
  (wordsAux line []).take 3

/-- `strcasecmp(s, t) == 0`. -/
def strcaseEq (s t : List Char) : Bool :=
  s.map Char.toLower == t.map Char.toLower

/-- Where `process_request` goes after reading the request line: either
the 501 error response (proxy.c lines 191-195, the only error response in
the function) or the cache probe `check_cache(&global_cache, uri)`
(line 197) with whatever the `uri` buffer holds. -/
inductive GateResult where
  | e501 (cause : List Char)
  | probe (uri : List Char)
deriving DecidableEq, Repr

/-- The request-line gate of `process_request` (proxy.c lines 188-197):
tokenize the line; a buffer not assigned by `sscanf` keeps its stale
contents (`m0` for `method`, `u0` for `uri`); if the method is not GET
(case-insensitively) send 501, otherwise proceed to the cache probe.
There is no token-count check and no 400 path. -/
def requestGate (line m0 u0 : List Char) : GateResult :=
  let ts := sscanfTokens line
  let method := ts.getD 0 m0
  let uri := ts.getD 1 u0
  if strcaseEq method ("GET".data) then .probe uri else .e501 method

/-! ## `extract_uri` (proxy.c lines 275-303) -/

/-- Result of `extract_uri`: the four output buffers. -/
structure UriParts where
  host : List Char
  path : List Char
  port : List Char
  request_header : List Char
deriving DecidableEq, Repr

/-- `strstr(uri, "//")` (proxy.c line 278) followed by `+ 2`: the suffix
after the first occurrence of `"//"`, or `none` when absent. -/
def afterSlashSlash : List Char → Option (List Char)
  | '/' :: '/' :: rest => some rest
  | _ :: rest => afterSlashSlash rest
  | [] => none

/-- A host-terminating character (proxy.c line 282). -/
def hostEndChar (c : Char) : Bool := c == '/' || c == ':'

/-- `extract_uri` (proxy.c lines 275-303).  `port` defaults to `"80"`
(line 276) and is overwritten only in the `':'` branch; in that branch a
missing `'/'` gives `path = "/"` (line 296); in the other branch `path`
is copied from `host_end` onward — the empty string when the host runs to
end-of-string.  Line 302 formats the origin prelude. -/
def extract_uri (uri : List Char) : UriParts :=
  let s := (afterSlashSlash uri).getD uri
  let host := s.takeWhile (fun c => !hostEndChar c)
  let rest := s.dropWhile (fun c => !hostEndChar c)
  let hp :=
    match rest with
    | ':' :: afterColon =>
      let port := afterColon.takeWhile (fun c => !(c == '/'))
      let tail := afterColon.dropWhile (fun c => !(c == '/'))
      match tail with
      | [] => (afterColon, [ '/' ])
      | _ :: _ => (port, tail)
    | _ => (("80".data : List Char), rest)
  { host := host, path := hp.2, port := hp.1,
    request_header :=
      "GET ".data ++ hp.2 ++ " HTTP/1.0\r\nHost: ".data ++ host ++ "\r\n".data }

/-! ## `process_headers` (proxy.c lines 229-252) -/

/-- `User-Agent` string (proxy.c line 9). -/
def user_agent : List Char :=
  "User-Agent: Mozilla/5.0 (X11; Linux x86_64; rv:10.0.3) Gecko/20120305 Firefox/10.0.3\r\n".data

/-- `Connection: close` header (proxy.c line 10). -/
def connection_hdr : List Char := "Connection: close\r\n".data

/-- `Proxy-Connection: close` header (proxy.c line 11). -/
def proxy_connection : List Char := "Proxy-Connection: close\r\n".data

/-- The suppression test of `process_headers` (proxy.c lines 242-245):
case-sensitive `strncmp` against the four header names. -/
def suppressedLine (l : List Char) : Bool :=
  strncmp0 ("Host:".data) l 5 ||
  strncmp0 ("User-Agent:".data) l 11 ||
  strncmp0 ("Connection:".data) l 11 ||
  strncmp0 ("Proxy-Connection:".data) l 17

/-- The relay loop of `process_headers` (proxy.c lines 239-249): read
client lines until the blank line `"\r\n"` (or EOF, the end of the input
list), drop suppressed lines, forward the rest verbatim. -/
def relayLines : List (List Char) → List (List Char)
  | [] => []
  | l :: rest =>
    if l == ("\r\n".data : List Char) then []
    else if suppressedLine l then relayLines rest
    else l :: relayLines rest

/-- The lines `process_headers` writes to the origin (proxy.c lines
232-251): the three fixed headers, then the filtered client lines, then
the final CRLF. -/
def process_headers (clientLines : List (List Char)) : List (List Char) :=
  [user_agent, connection_hdr, proxy_connection] ++ relayLines clientLines ++ [("\r\n".data : List Char)]

/-- Everything `process_request` writes to the origin socket, as lines:
the prelude built by `extract_uri` (written at proxy.c line 205 — its two
lines `GET <path> HTTP/1.0` and `Host: <host>`) followed by the
`process_headers` output (line 206). -/
def originLines (host path : List Char) (clientLines : List (List Char)) : List (List Char) :=
  ("GET ".data ++ path ++ " HTTP/1.0\r\n".data) ::
    ("Host: ".data ++ host ++ "\r\n".data) ::
    process_headers clientLines

/-! ## The cache state and trace semantics used by the invariant claims -/

/-- `Σ entries[*].size` over the node list (spec invariant I1's right side,
computed from the model's nodes). -/
def sumSizes (l : List CacheNode) : Int := (l.map (fun e => e.content_size)).sum

/-- The cache operations visible to the request pipeline: a lookup
(`check_cache`) or an admission (`add_to_cache`). -/
inductive CacheOp where
  | look (uri : List Char)
  | adm (uri : List Char) (size : Int)
deriving DecidableEq, Repr

/-- One cache operation on the pair (cache, `access_counter`).  The
second component of the result lists the tick values `update_counter`
returned during the operation: one on a lookup hit (proxy.c line 98), one
at each insertion (line 126), none otherwise.  A diverging eviction loop
(`add_to_cache = none`) performs no update. -/
def stepOp (s : Cache × Int) (op : CacheOp) : (Cache × Int) × List Int :=
  match op with
  | .look uri =>
    match check_cache s.1 uri s.2 with
    | (c', ctr', some _) => ((c', ctr'), [ctr'])
    | (c', ctr', none) => ((c', ctr'), [])
  | .adm uri size =>
    match add_to_cache s.1 uri size s.2 with
    | some (c', ctr') => ((c', ctr'), if size > MAX_OBJECT_SIZE then [] else [ctr'])
    | none => (s, [])

/-- Run a sequence of cache operations, concatenating the assigned
ticks in order. -/
def runOps (s : Cache × Int) : List CacheOp → (Cache × Int) × List Int
  | [] => (s, [])
  | op :: rest =>
    let r := stepOp s op
    let r2 := runOps r.1 rest
    (r2.1, r.2 ++ r2.2)

/-! ## Lemmas about `strncmp0` and `cacheMatch` -/

theorem strncmp0_iff (s t : List Char) (n : Nat) (hn : n ≤ s.length) :
    strncmp0 s t n = true ↔ s.take n <+: t := by
  induction n generalizing s t with
  | zero => simp [strncmp0, List.nil_prefix]
  | succ n ih =>
    cases s with
    | nil => simp at hn
    | cons a s' =>
      cases t with
      | nil => simp [strncmp0]
      | cons b t' =>
        simp only [strncmp0, List.take_succ_cons, List.cons_prefix_cons,
          Bool.and_eq_true, beq_iff_eq]
        exact and_congr Iff.rfl (ih s' t' (Nat.le_of_succ_le_succ hn))

theorem strncmp0_length (s t : List Char) :
    strncmp0 s t s.length = s.isPrefixOf t := by
  induction s generalizing t with
  | nil => cases t <;> rfl
  | cons a s' ih =>
    cases t with
    | nil => rfl
    | cons b t' => simp [strncmp0, List.isPrefixOf, ih]

/-- Characterization of the match condition of `check_cache` for a
non-empty query key: exact equality, or — when the query ends in `'/'` —
the query minus its trailing slash being a *prefix* (not necessarily the
whole) of the stored key. -/
theorem cacheMatch_iff (uri url : List Char) :
    cacheMatch uri url = true ↔
      url = uri ∨ (uri.getLast? = some '/' ∧ uri.dropLast <+: url) := by
  have hlen : uri.length - 1 ≤ uri.length := Nat.sub_le _ _
  have hdrop : uri.take (uri.length - 1) = uri.dropLast := (List.dropLast_eq_take uri).symm
  simp only [cacheMatch, Bool.or_eq_true, Bool.and_eq_true, beq_iff_eq]
  constructor
  · rintro (h1 | ⟨h1, h2⟩)
    · exact Or.inl h1
    · exact Or.inr ⟨h1, hdrop ▸ (strncmp0_iff uri url _ hlen).mp h2⟩
  · rintro (h1 | ⟨h1, h2⟩)
    · exact Or.inl h1
    · exact Or.inr ⟨h1, (strncmp0_iff uri url _ hlen).mpr (hdrop ▸ h2)⟩

/-! ## Lemmas about `refreshFirst` and `check_cache` -/

theorem refreshFirst_nil (uri : List Char) (t : Int) :
    refreshFirst [] uri t = ([], none) := rfl

theorem refreshFirst_cons_pos (a : CacheNode) (rest : List CacheNode) (uri : List Char)
    (t : Int) (hm : cacheMatch uri a.url = true) :
    refreshFirst (a :: rest) uri t =
      ({ a with access_time := t } :: rest, some { a with access_time := t }) := by
  simp [refreshFirst, hm]

theorem refreshFirst_cons_neg (a : CacheNode) (rest : List CacheNode) (uri : List Char)
    (t : Int) (hm : ¬cacheMatch uri a.url = true) :
    refreshFirst (a :: rest) uri t =
      (a :: (refreshFirst rest uri t).1, (refreshFirst rest uri t).2) := by
  simp [refreshFirst, hm]

theorem refreshFirst_found (l : List CacheNode) (uri : List Char) (t : Int) :
    ∀ e, (refreshFirst l uri t).2 = some e → e.access_time = t := by
  induction l with
  | nil => intro e he; simp [refreshFirst_nil] at he
  | cons a rest ih =>
    intro e he
    by_cases hm : cacheMatch uri a.url
    · rw [refreshFirst_cons_pos a rest uri t hm] at he
      simp only [Option.some.injEq] at he
      simp [← he]
    · rw [refreshFirst_cons_neg a rest uri t hm] at he
      exact ih e he

theorem refreshFirst_isSome_iff (l : List CacheNode) (uri : List Char) (t : Int) :
    (refreshFirst l uri t).2.isSome = true ↔ ∃ e ∈ l, cacheMatch uri e.url = true := by
  induction l with
  | nil => simp [refreshFirst_nil]
  | cons a rest ih =>
    by_cases hm : cacheMatch uri a.url
    · rw [refreshFirst_cons_pos a rest uri t hm]
      simp only [Option.isSome_some, true_iff]
      exact ⟨a, List.mem_cons_self a rest, hm⟩
    · rw [refreshFirst_cons_neg a rest uri t hm]
      simp only [ih, List.mem_cons]
      constructor
      · rintro ⟨e, he, hme⟩; exact ⟨e, Or.inr he, hme⟩
      · rintro ⟨e, he | he, hme⟩
        · exact absurd (he ▸ hme) hm
        · exact ⟨e, he, hme⟩

/-- The refreshed list keeps every node's key and size, keeps the total
size, and every node of the result either was in the input or carries the
fresh stamp `t`. -/
theorem refreshFirst_entries (l : List CacheNode) (uri : List Char) (t : Int) :
    sumSizes (refreshFirst l uri t).1 = sumSizes l ∧
    ∀ e ∈ (refreshFirst l uri t).1,
      (∃ e0 ∈ l, e.content_size = e0.content_size ∧ e.url = e0.url) ∧
      (e ∈ l ∨ e.access_time = t) := by
  induction l with
  | nil => simp [refreshFirst_nil]
  | cons a rest ih =>
    by_cases hm : cacheMatch uri a.url
    · rw [refreshFirst_cons_pos a rest uri t hm]
      refine ⟨by simp [sumSizes], ?_⟩
      intro e he
      simp only [List.mem_cons] at he
      rcases he with he | he
      · exact ⟨⟨a, List.mem_cons_self a rest, by simp [he]⟩, Or.inr (by simp [he])⟩
      · exact ⟨⟨e, List.mem_cons_of_mem a he, rfl, rfl⟩, Or.inl (List.mem_cons_of_mem a he)⟩
    · rw [refreshFirst_cons_neg a rest uri t hm]
      refine ⟨by simp only [sumSizes, List.map_cons, List.sum_cons] at ih ⊢; rw [ih.1], ?_⟩
      intro e he
      simp only [List.mem_cons] at he
      rcases he with he | he
      · exact ⟨⟨a, List.mem_cons_self a rest, by simp [he]⟩, Or.inl (by simp [he])⟩
      · rcases ih.2 e he with ⟨⟨e0, he0, hsz⟩, hacc⟩
        refine ⟨⟨e0, List.mem_cons_of_mem a he0, hsz⟩, ?_⟩
        rcases hacc with h1 | h1
        · exact Or.inl (List.mem_cons_of_mem a h1)
        · exact Or.inr h1

/-! ## Lemmas about `argminTime`, `remove_oldest` and `evictLoop` -/

theorem argminTime_eq_none_iff (l : List CacheNode) :
    argminTime l = none ↔ l = [] := by
  cases l with
  | nil => simp [argminTime]
  | cons a rest =>
    simp only [argminTime]
    cases argminTime rest with
    | none => simp
    | some p =>
      rcases p with ⟨i, v⟩
      by_cases hlt : v.access_time < a.access_time <;> simp [hlt]

/-- The victim scan is sound: the selected node sits at the returned
index and its `access_time` is minimal over the whole list. -/
theorem argminTime_spec (l : List CacheNode) (i : Nat) (v : CacheNode)
    (h : argminTime l = some (i, v)) :
    ∃ hi : i < l.length,
      l[i] = v ∧ ∀ e ∈ l, v.access_time ≤ e.access_time := by
  induction l generalizing i v with
  | nil => simp [argminTime] at h
  | cons a rest ih =>
    simp only [argminTime] at h
    cases hrec : argminTime rest with
    | none =>
      rw [hrec] at h
      simp only [Option.some.injEq, Prod.mk.injEq] at h
      obtain ⟨hi, hv⟩ := h
      subst hi; subst hv
      have hrest : rest = [] := (argminTime_eq_none_iff rest).mp hrec
      subst hrest
      exact ⟨by simp, rfl, by simp⟩
    | some p =>
      obtain ⟨j, w⟩ := p
      rw [hrec] at h
      obtain ⟨hj, hget, hmin⟩ := ih j w hrec
      by_cases hlt : w.access_time < a.access_time
      · simp only [hlt, if_true, Option.some.injEq, Prod.mk.injEq] at h
        obtain ⟨hi, hv⟩ := h
        subst hv
        subst hi
        refine ⟨by simpa [List.length_cons] using Nat.succ_lt_succ hj, by simpa using hget, ?_⟩
        intro e he
        rcases List.mem_cons.mp he with he | he
        · exact he ▸ le_of_lt hlt
        · exact hmin e he
      · simp only [hlt, if_false, Option.some.injEq, Prod.mk.injEq] at h
        obtain ⟨hi, hv⟩ := h
        subst hv
        subst hi
        refine ⟨by simp, rfl, ?_⟩
        intro e he
        rcases List.mem_cons.mp he with he | he
        · exact he ▸ le_refl _
        · exact le_trans (le_of_not_lt hlt) (hmin e he)

theorem sumSizes_eraseIdx (l : List CacheNode) (i : Nat) (hi : i < l.length) :
    sumSizes (l.eraseIdx i) = sumSizes l - l[i].content_size := by
  induction l generalizing i with
  | nil => simp at hi
  | cons a rest ih =>
    cases i with
    | zero => simp [sumSizes, List.eraseIdx]
    | succ j =>
      have hj : j < rest.length := Nat.lt_of_succ_lt_succ hi
      simp only [List.eraseIdx_cons_succ, sumSizes, List.map_cons, List.sum_cons,
        List.getElem_cons_succ] at ih ⊢
      rw [ih j hj]
      ring

theorem remove_oldest_nil (c : Cache) (h : c.first = []) : remove_oldest c = c := by
  have : argminTime c.first = none := (argminTime_eq_none_iff c.first).mpr h
  simp [remove_oldest, this]

/-- `remove_oldest` on a non-empty cache: the result is the erasure of
the victim index, the victim attains the minimal `access_time`, and the
size bookkeeping subtracts exactly the victim's size. -/
theorem remove_oldest_spec (c : Cache) (h : c.first ≠ []) :
    ∃ i v, argminTime c.first = some (i, v) ∧
      ∃ hi : i < c.first.length,
        c.first[i] = v ∧
        (remove_oldest c).first = c.first.eraseIdx i ∧
        (remove_oldest c).current_size = c.current_size - v.content_size ∧
        ∀ e ∈ c.first, v.access_time ≤ e.access_time := by
  cases hh : argminTime c.first with
  | none => exact absurd ((argminTime_eq_none_iff c.first).mp hh) h
  | some p =>
    obtain ⟨i, v⟩ := p
    obtain ⟨hi, hget, hmin⟩ := argminTime_spec c.first i v hh
    exact ⟨i, v, rfl, hi, hget, by simp [remove_oldest, hh], by simp [remove_oldest, hh], hmin⟩

theorem remove_oldest_mem (c : Cache) (e : CacheNode)
    (he : e ∈ (remove_oldest c).first) : e ∈ c.first := by
  by_cases h : c.first = []
  · rwa [remove_oldest_nil c h] at he
  · rcases remove_oldest_spec c h with ⟨i, v, _, hi, _, hfirst, _, _⟩
    rw [hfirst] at he
    exact (List.eraseIdx_sublist c.first i).mem he

theorem remove_oldest_sum (c : Cache)
    (h1 : c.current_size = sumSizes c.first) :
    (remove_oldest c).current_size = sumSizes (remove_oldest c).first := by
  by_cases h : c.first = []
  · rw [remove_oldest_nil c h]; exact h1
  · rcases remove_oldest_spec c h with ⟨i, v, _, hi, hget, hfirst, hsize, _⟩
    rw [hfirst, hsize, sumSizes_eraseIdx c.first i hi, hget, h1]

theorem remove_oldest_length (c : Cache) (h : c.first ≠ []) :
    (remove_oldest c).first.length + 1 = c.first.length := by
  rcases remove_oldest_spec c h with ⟨i, v, _, hi, _, hfirst, _, _⟩
  rw [hfirst]
  exact List.length_eraseIdx_add_one hi

/-- Unfolding equation for one pass of the eviction loop. -/
theorem evictLoop_eq (fuel : Nat) (size : Int) (c : Cache) :
    evictLoop fuel size c =
      if c.current_size + size ≤ MAX_CACHE_SIZE then some c
      else
        match fuel with
        | 0 => none
        | fuel' + 1 => evictLoop fuel' size (remove_oldest c) := by
  cases fuel <;> rfl

/-- Whatever the fuel, a successful eviction loop preserves the size
accounting, only removes nodes, and exits with room for `size`. -/
theorem evictLoop_some_spec (fuel : Nat) (size : Int) (c c' : Cache)
    (h : evictLoop fuel size c = some c')
    (h1 : c.current_size = sumSizes c.first) :
    c'.current_size = sumSizes c'.first ∧
    (∀ e ∈ c'.first, e ∈ c.first) ∧
    c'.current_size + size ≤ MAX_CACHE_SIZE := by
  induction fuel generalizing c with
  | zero =>
    rw [evictLoop_eq] at h
    by_cases hle : c.current_size + size ≤ MAX_CACHE_SIZE
    · simp only [hle, if_pos, Option.some.injEq] at h
      subst h
      exact ⟨h1, fun e he => he, hle⟩
    · simp [hle] at h
  | succ fuel ih =>
    rw [evictLoop_eq] at h
    by_cases hle : c.current_size + size ≤ MAX_CACHE_SIZE
    · simp only [hle, if_pos, Option.some.injEq] at h
      subst h
      exact ⟨h1, fun e he => he, hle⟩
    · simp only [hle, if_neg, not_false_iff] at h
      rcases ih (remove_oldest c) h (remove_oldest_sum c h1) with ⟨g1, g2, g3⟩
      exact ⟨g1, fun e he => remove_oldest_mem c e (g2 e he), g3⟩

/-- Termination of the eviction loop under invariant I1: fuel
`length + 1` always suffices, because each iteration removes a node from
a non-empty list and the empty cache has `current_size = 0`, which
satisfies the guard since `MAX_OBJECT_SIZE < MAX_CACHE_SIZE`. -/
theorem evictLoop_isSome (fuel : Nat) (size : Int) (c : Cache)
    (hfuel : c.first.length < fuel)
    (h1 : c.current_size = sumSizes c.first)
    (hs : size ≤ MAX_OBJECT_SIZE) :
    (evictLoop fuel size c).isSome = true := by
  induction fuel generalizing c with
  | zero => exact absurd hfuel (Nat.not_lt_zero _)
  | succ fuel ih =>
    rw [evictLoop_eq]
    by_cases hle : c.current_size + size ≤ MAX_CACHE_SIZE
    · simp [hle]
    · simp only [hle, if_neg, not_false_iff]
      by_cases hnil : c.first = []
      · exfalso
        have hz : c.current_size = 0 := by rw [h1, hnil]; rfl
        have : c.current_size + size ≤ MAX_CACHE_SIZE := by
          rw [hz]
          have : (MAX_OBJECT_SIZE : Int) ≤ MAX_CACHE_SIZE := by norm_num [MAX_OBJECT_SIZE, MAX_CACHE_SIZE]
          omega
        exact hle this
      · have hlen := remove_oldest_length c hnil
        exact ih (remove_oldest c) (by omega) (remove_oldest_sum c h1)

/-! ## Claim C1 — the streaming tee at the object-size boundary -/

/-- `teeRun` on exactly two chunks, the first staged, the second not:
used to evaluate the tee loop at the object-size boundary. -/
theorem teeRun_two (c1 c2 : List Nat)
    (h1 : (c1.length : Int) < MAX_OBJECT_SIZE)
    (h2 : ¬((c1.length : Int) + (c2.length : Int) < MAX_OBJECT_SIZE)) :
    teeRun [c1, c2] =
      { staging := c1, total_size := (c1.length : Int) + (c2.length : Int),
        client := c1 ++ c2 } := by
  have e1 : teeChunk { staging := [], total_size := 0, client := [] } c1 =
      { staging := c1, total_size := (c1.length : Int), client := c1 } := by
    unfold teeChunk
    dsimp only
    rw [if_pos (by simpa using h1)]
    simp
  have e2 : teeChunk { staging := c1, total_size := (c1.length : Int), client := c1 } c2 =
      { staging := c1, total_size := (c1.length : Int) + (c2.length : Int),
        client := c1 ++ c2 } := by
    unfold teeChunk
    dsimp only
    rw [if_neg h2]
  show teeChunk (teeChunk { staging := [], total_size := 0, client := [] } c1) c2 = _
  rw [e1, e2]

/-- C1: the claim states the chunk is appended to staging whenever
`total_size + n ≤ MAX_OBJECT_SIZE` and that a response of exactly
`MAX_OBJECT_SIZE` bytes is complete in staging when admission runs.  The
code (proxy.c line 214) uses the strict test `total_size + n <
MAX_OBJECT_SIZE` while the admission guard (line 223) uses `≤`: on an
origin body of 102399 + 1 = 102400 bytes, the final chunk is dropped from
staging, `total_size = 102400` still passes the admission guard, and the
staged bytes differ from the bytes the client received. -/
theorem tee_boundary_chunk_dropped :
    (teeRun [List.replicate 102399 0, [7]]).total_size = 102400 ∧
    admitGuard (teeRun [List.replicate 102399 0, [7]]) = true ∧
    (teeRun [List.replicate 102399 0, [7]]).staging = List.replicate 102399 0 ∧
    (teeRun [List.replicate 102399 0, [7]]).client = List.replicate 102399 0 ++ [7] ∧
    (teeRun [List.replicate 102399 0, [7]]).staging ≠
      (teeRun [List.replicate 102399 0, [7]]).client := by
  have hr := teeRun_two (List.replicate 102399 0) [7]
    (by rw [List.length_replicate]; norm_num [MAX_OBJECT_SIZE])
    (by rw [List.length_replicate]; norm_num [MAX_OBJECT_SIZE])
  rw [hr]
  refine ⟨?_, ?_, rfl, rfl, ?_⟩
  · rw [List.length_replicate]; norm_num
  · unfold admitGuard
    dsimp only
    rw [List.length_replicate]
    norm_num [MAX_OBJECT_SIZE]
  · intro hEq
    have hlen2 := congrArg List.length hEq
    dsimp only at hlen2
    rw [List.length_append, List.length_replicate] at hlen2
    simp at hlen2

/-! ## Claim C2 — the cache matching rule -/

/-- C2 counterexample: the claim says a query key ending in `'/'` matches
only an entry whose key equals the query minus its trailing slash, and
never one that merely extends it.  In the code the `strncmp` over
`strlen(uri)-1` characters is a prefix test: the query `"a/"` hits a
cached entry whose key is `"ab"`, although the spec's rule
(equality, or slash-stripped equality) rejects that pair. -/
theorem trailing_slash_matches_extension :
    cacheMatch ("a/".data) ("ab".data) = true ∧
    (check_cache
        { first := [{ url := "ab".data, content_size := 1, access_time := 0 }],
          current_size := 1 } ("a/".data) 0).2.2.isSome = true ∧
    ¬("ab".data = "a/".data ∨
      (("a/".data).getLast? = some '/' ∧ "ab".data = ("a/".data).dropLast)) := by
  decide

/-- C2 (amended): for every cache state and non-empty query key, lookup
returns a hit iff some entry's key equals the query key exactly, or the
query key ends in `'/'` and the query key minus its trailing slash is a
*prefix* of the entry's key (not necessarily all of it). -/
theorem check_cache_hit_iff (c : Cache) (uri : List Char) (ctr : Int) (h : uri ≠ []) :
    ((check_cache c uri ctr).2.2.isSome = true ↔
      ∃ e ∈ c.first, e.url = uri ∨
        (uri.getLast? = some '/' ∧ uri.dropLast <+: e.url)) := by
  have hsome : (check_cache c uri ctr).2.2.isSome =
      (refreshFirst c.first uri (ctr + 1)).2.isSome := by
    unfold check_cache
    rcases hrf : refreshFirst c.first uri (ctr + 1) with ⟨l, opt⟩
    cases opt <;> simp
  rw [hsome, refreshFirst_isSome_iff]
  constructor
  · rintro ⟨e, he, hm⟩
    exact ⟨e, he, (cacheMatch_iff uri e.url).mp hm⟩
  · rintro ⟨e, he, hm⟩
    exact ⟨e, he, (cacheMatch_iff uri e.url).mpr hm⟩

/-- Witness for the amended C2 theorem at a concrete state: the
hypothesis (non-empty query) holds and the equivalence is realized. -/
theorem check_cache_hit_iff_witness :
    ("a/".data ≠ ([] : List Char)) ∧
    ((check_cache
        { first := [{ url := "abc".data, content_size := 1, access_time := 0 }],
          current_size := 1 } ("a/".data) 0).2.2.isSome = true ↔
      ∃ e ∈ [({ url := "abc".data, content_size := 1, access_time := 0 } : CacheNode)],
        e.url = "a/".data ∨
          (("a/".data).getLast? = some '/' ∧ ("a/".data).dropLast <+: e.url)) :=
  ⟨by decide,
    check_cache_hit_iff
      { first := [{ url := "abc".data, content_size := 1, access_time := 0 }],
        current_size := 1 } ("a/".data) 0 (by decide)⟩

/-! ## Claim C3 — key uniqueness under admission -/

/-- C3: the claim states no two entries ever share a key (invariant I4),
even when admitting a key that is already cached.  `add_to_cache`
(proxy.c lines 122-129) unconditionally allocates and prepends a node
without looking for the key: admitting `"k"` twice from the empty cache
yields two entries with the key `"k"`. -/
theorem duplicate_key_admission :
    ((add_to_cache initialize_cache ("k".data) 4 0).bind fun p =>
        add_to_cache p.1 ("k".data) 4 p.2).map
        (fun p => p.1.first.map CacheNode.url) =
      some ["k".data, "k".data] := by
  decide

/-! ## Claim C7 — malformed request lines -/

/-- C7: the claim states a request line with fewer than three tokens
raises MalformedRequest and surfaces a 400 before the cache probe.  The
code ignores the return value of `sscanf` (proxy.c line 189) and has no
400 path at all: on the one-token line `"GET\r\n"` the `uri` buffer is
never assigned, the method test passes, and the pipeline proceeds
directly to the cache probe with the stale `uri` contents, whatever they
are. -/
theorem malformed_line_reaches_cache_probe :
    sscanfTokens ("GET\r\n".data) = ["GET".data] ∧
    (sscanfTokens ("GET\r\n".data)).length < 3 ∧
    ∀ m0 u0 : List Char, requestGate ("GET\r\n".data) m0 u0 = GateResult.probe u0 := by
  refine ⟨by decide, by decide, ?_⟩
  intro m0 u0
  rfl

/-! ## Claim C8 — the default path of `extract_uri` -/

/-- C8 counterexample: the claim says a URI whose host span runs to
end-of-string yields `path = "/"`.  On `"http://h"` the code's non-colon
branch copies from `host_end` (proxy.c line 299), producing the empty
path and the origin request line `"GET  HTTP/1.0"`. -/
theorem extract_uri_bare_host_empty_path :
    (extract_uri ("http://h".data)).path = [] ∧
    (extract_uri ("http://h".data)).path ≠ "/".data ∧
    (extract_uri ("http://h".data)).host = "h".data ∧
    (extract_uri ("http://h".data)).request_header = "GET  HTTP/1.0\r\nHost: h\r\n".data := by
  decide

/-- C8 (amended): when the host span is terminated by end-of-string (no
`'/'` and no `':'` after the host), `path` is the *empty* string — not
`"/"` — the port keeps its default `"80"`, and the produced prelude is
`"GET  HTTP/1.0\r\nHost: <host>\r\n"` with an empty request target. -/
theorem extract_uri_end_of_string (uri : List Char)
    (h : ∀ c ∈ (afterSlashSlash uri).getD uri, hostEndChar c = false) :
    (extract_uri uri).path = [] ∧
    (extract_uri uri).host = (afterSlashSlash uri).getD uri ∧
    (extract_uri uri).port = "80".data ∧
    (extract_uri uri).request_header =
      "GET  HTTP/1.0\r\nHost: ".data ++ (afterSlashSlash uri).getD uri ++ "\r\n".data := by
  have htake : ((afterSlashSlash uri).getD uri).takeWhile (fun c => !hostEndChar c) =
      (afterSlashSlash uri).getD uri :=
    List.takeWhile_eq_self_iff.mpr (by intro x hx; simp [h x hx])
  have hdrop : ((afterSlashSlash uri).getD uri).dropWhile (fun c => !hostEndChar c) = [] :=
    List.dropWhile_eq_nil_iff.mpr (by intro x hx; simp [h x hx])
  unfold extract_uri
  dsimp only
  rw [htake, hdrop]
  exact ⟨rfl, rfl, rfl, rfl⟩

/-- Witness for the amended C8 theorem at the concrete URI
`"http://h"`. -/
theorem extract_uri_end_of_string_witness :
    (∀ c ∈ (afterSlashSlash ("http://h".data)).getD ("http://h".data),
      hostEndChar c = false) ∧
    ((extract_uri ("http://h".data)).path = [] ∧
     (extract_uri ("http://h".data)).host =
       (afterSlashSlash ("http://h".data)).getD ("http://h".data) ∧
     (extract_uri ("http://h".data)).port = "80".data ∧
     (extract_uri ("http://h".data)).request_header =
       "GET  HTTP/1.0\r\nHost: ".data ++
         (afterSlashSlash ("http://h".data)).getD ("http://h".data) ++ "\r\n".data) :=
  ⟨by decide, extract_uri_end_of_string ("http://h".data) (by decide)⟩

/-! ## Claim C5 — the eviction victim -/

/-- C5: eviction removes exactly one entry whose `last_access`
(`access_time`) is minimal over all entries just before the eviction; on
an empty cache it removes nothing and leaves the state unchanged. -/
theorem remove_oldest_lru (c : Cache) :
    (c.first = [] → remove_oldest c = c) ∧
    (c.first ≠ [] → ∃ i, ∃ hi : i < c.first.length,
      (remove_oldest c).first = c.first.eraseIdx i ∧
      (remove_oldest c).first.length + 1 = c.first.length ∧
      ∀ e ∈ c.first, c.first[i].access_time ≤ e.access_time) := by
  refine ⟨remove_oldest_nil c, ?_⟩
  intro h
  obtain ⟨i, v, _, hi, hget, hfirst, _, hmin⟩ := remove_oldest_spec c h
  refine ⟨i, hi, hfirst, remove_oldest_length c h, ?_⟩
  intro e he
  rw [hget]
  exact hmin e he

/-- A concrete two-entry cache whose older entry sits in second
position, used to witness the eviction claim. -/
def cacheTwo : Cache :=
  ⟨[⟨"a".data, 1, 5⟩, ⟨"b".data, 2, 3⟩], 3⟩

/-- Witness for C5 on `cacheTwo`. -/
theorem remove_oldest_lru_witness :
    (cacheTwo.first ≠ []) ∧
    (∃ i, ∃ hi : i < cacheTwo.first.length,
      (remove_oldest cacheTwo).first = cacheTwo.first.eraseIdx i ∧
      (remove_oldest cacheTwo).first.length + 1 = cacheTwo.first.length ∧
      ∀ e ∈ cacheTwo.first, cacheTwo.first[i].access_time ≤ e.access_time) :=
  ⟨by decide, (remove_oldest_lru cacheTwo).2 (by decide)⟩

/-! ## Claim C4 — size accounting and capacity -/

/-- C4: starting from a state satisfying I1 (`current_size` is the sum of
the entry sizes), non-negative entry sizes and the capacity bound I2,
lookup, eviction and admission (of a body with `0 ≤ size ≤
MAX_OBJECT_SIZE`) each preserve I1 and leave `current_size ≤
MAX_CACHE_SIZE`. -/
theorem cache_size_invariants (c : Cache) (uri : List Char) (size ctr : Int)
    (h1 : c.current_size = sumSizes c.first)
    (hnn : ∀ e ∈ c.first, 0 ≤ e.content_size)
    (h2 : c.current_size ≤ MAX_CACHE_SIZE)
    (hs0 : 0 ≤ size) (hs1 : size ≤ MAX_OBJECT_SIZE) :
    ((check_cache c uri ctr).1.current_size = sumSizes (check_cache c uri ctr).1.first ∧
     (check_cache c uri ctr).1.current_size ≤ MAX_CACHE_SIZE) ∧
    ((remove_oldest c).current_size = sumSizes (remove_oldest c).first ∧
     (remove_oldest c).current_size ≤ MAX_CACHE_SIZE) ∧
    (∀ c' ctr', add_to_cache c uri size ctr = some (c', ctr') →
      c'.current_size = sumSizes c'.first ∧ c'.current_size ≤ MAX_CACHE_SIZE) := by
  refine ⟨?_, ⟨remove_oldest_sum c h1, ?_⟩, ?_⟩
  · have hcc : (check_cache c uri ctr).1.current_size = c.current_size ∧
        sumSizes (check_cache c uri ctr).1.first = sumSizes c.first := by
      unfold check_cache
      have hsum := (refreshFirst_entries c.first uri (ctr + 1)).1
      rcases hrf : refreshFirst c.first uri (ctr + 1) with ⟨l, opt⟩
      rw [hrf] at hsum
      cases opt
      · exact ⟨rfl, rfl⟩
      · exact ⟨rfl, hsum⟩
    rw [hcc.1, hcc.2]
    exact ⟨h1, h2⟩
  · by_cases h : c.first = []
    · rw [remove_oldest_nil c h]; exact h2
    · obtain ⟨i, v, _, hi, hget, _, hsize, _⟩ := remove_oldest_spec c h
      have hv : 0 ≤ v.content_size := hnn v (hget ▸ List.getElem_mem hi)
      rw [hsize]
      omega
  · intro c' ctr' hadd
    unfold add_to_cache at hadd
    rw [if_neg (not_lt.mpr hs1)] at hadd
    rcases hev : evictLoop (c.first.length + 1) size c with _ | c2
    · rw [hev] at hadd; cases hadd
    · rw [hev] at hadd
      simp only [Option.some.injEq, Prod.mk.injEq] at hadd
      obtain ⟨hc', _⟩ := hadd
      obtain ⟨g1, _, g3⟩ := evictLoop_some_spec (c.first.length + 1) size c c2 hev h1
      subst hc'
      constructor
      · dsimp only
        unfold sumSizes at g1 ⊢
        simp only [List.map_cons, List.sum_cons]
        omega
      · exact g3

/-- A concrete one-entry cache used to witness the size-invariant
claim. -/
def cacheOne : Cache := ⟨[⟨"x".data, 4, 1⟩], 4⟩

/-- Witness for C4 on `cacheOne`. -/
theorem cache_size_invariants_witness :
    (cacheOne.current_size = sumSizes cacheOne.first) ∧
    ((check_cache cacheOne ("x".data) 7).1.current_size =
      sumSizes (check_cache cacheOne ("x".data) 7).1.first ∧
     (check_cache cacheOne ("x".data) 7).1.current_size ≤ MAX_CACHE_SIZE) ∧
    ((remove_oldest cacheOne).current_size = sumSizes (remove_oldest cacheOne).first ∧
     (remove_oldest cacheOne).current_size ≤ MAX_CACHE_SIZE) ∧
    (∀ c' ctr', add_to_cache cacheOne ("u".data) 0 7 = some (c', ctr') →
      c'.current_size = sumSizes c'.first ∧ c'.current_size ≤ MAX_CACHE_SIZE) :=
  ⟨by decide,
    cache_size_invariants cacheOne ("u".data) 0 7
      (by decide) (by decide) (by decide) (by decide) (by decide)⟩

/-! ## Claim C10 — termination of the admission eviction loop -/

/-- C10: under I1 (`current_size` equal to the sum of the non-negative
entry sizes) and an admitted size of at most `MAX_OBJECT_SIZE`, the
eviction loop of `add_to_cache` terminates within `length + 1` guard
tests — each iteration removes one node from a non-empty list, and the
empty cache has `current_size = 0`, which satisfies the guard because
`MAX_OBJECT_SIZE < MAX_CACHE_SIZE` — so `add_to_cache` always returns a
result. -/
theorem admit_eviction_loop_terminates (c : Cache) (size : Int)
    (h1 : c.current_size = sumSizes c.first)
    (hnn : ∀ e ∈ c.first, 0 ≤ e.content_size)
    (hs1 : size ≤ MAX_OBJECT_SIZE) :
    (evictLoop (c.first.length + 1) size c).isSome = true ∧
    ∀ uri ctr, (add_to_cache c uri size ctr).isSome = true := by
  have hev := evictLoop_isSome (c.first.length + 1) size c (Nat.lt_succ_self _) h1 hs1
  refine ⟨hev, ?_⟩
  intro uri ctr
  unfold add_to_cache
  rw [if_neg (not_lt.mpr hs1)]
  rcases hx : evictLoop (c.first.length + 1) size c with _ | c2
  · rw [hx] at hev; simp at hev
  · rfl

/-- A concrete cache filled to exactly `MAX_CACHE_SIZE`, so admitting
five more bytes forces one eviction. -/
def cacheFull : Cache := ⟨[⟨"y".data, 1049000, 2⟩], 1049000⟩

/-- Witness for C10 on `cacheFull`. -/
theorem admit_eviction_loop_terminates_witness :
    (cacheFull.current_size = sumSizes cacheFull.first) ∧
    ((evictLoop (cacheFull.first.length + 1) 5 cacheFull).isSome = true ∧
     ∀ uri ctr, (add_to_cache cacheFull uri 5 ctr).isSome = true) :=
  ⟨by decide,
    admit_eviction_loop_terminates cacheFull 5 (by decide) (by decide) (by decide)⟩

/-! ## Claim C6 — tick freshness -/

theorem evictLoop_mem (fuel : Nat) (size : Int) (c c' : Cache)
    (h : evictLoop fuel size c = some c') :
    ∀ e ∈ c'.first, e ∈ c.first := by
  induction fuel generalizing c with
  | zero =>
    rw [evictLoop_eq] at h
    by_cases hle : c.current_size + size ≤ MAX_CACHE_SIZE
    · simp only [hle, if_pos, Option.some.injEq] at h
      subst h
      exact fun e he => he
    · simp [hle] at h
  | succ fuel ih =>
    rw [evictLoop_eq] at h
    by_cases hle : c.current_size + size ≤ MAX_CACHE_SIZE
    · simp only [hle, if_pos, Option.some.injEq] at h
      subst h
      exact fun e he => he
    · simp only [hle, if_neg, not_false_iff] at h
      exact fun e he => remove_oldest_mem c e (ih (remove_oldest c) h e he)

/-- On a hit, `check_cache` advances the counter to `ctr + 1`, stamps the
found node with it, and every node of the result is either an old node
or carries the fresh stamp; on a miss everything is unchanged. -/
theorem check_cache_cases (c : Cache) (uri : List Char) (ctr : Int) :
    (check_cache c uri ctr = (c, ctr, none)) ∨
    ((check_cache c uri ctr).2.1 = ctr + 1 ∧
     (∃ e', (check_cache c uri ctr).2.2 = some e' ∧ e'.access_time = ctr + 1) ∧
     ∀ e ∈ (check_cache c uri ctr).1.first, e ∈ c.first ∨ e.access_time = ctr + 1) := by
  unfold check_cache
  have hent := (refreshFirst_entries c.first uri (ctr + 1)).2
  have hfound := refreshFirst_found c.first uri (ctr + 1)
  rcases hrf : refreshFirst c.first uri (ctr + 1) with ⟨l, opt⟩
  rw [hrf] at hent hfound
  cases opt with
  | none => exact Or.inl rfl
  | some e =>
    refine Or.inr ⟨rfl, ⟨e, rfl, hfound e rfl⟩, ?_⟩
    intro x hx
    exact (hent x hx).2

theorem stepOp_facts (s : Cache × Int) (op : CacheOp)
    (hb : ∀ e ∈ s.1.first, e.access_time ≤ s.2) :
    (∀ e ∈ (stepOp s op).1.1.first, e.access_time ≤ (stepOp s op).1.2) ∧
    s.2 ≤ (stepOp s op).1.2 ∧
    (∀ t ∈ (stepOp s op).2, s.2 < t ∧ t ≤ (stepOp s op).1.2) ∧
    List.Pairwise (· < ·) (stepOp s op).2 := by
  obtain ⟨c, ctr⟩ := s
  cases op with
  | look uri =>
    simp only [stepOp]
    rcases check_cache_cases c uri ctr with hcc | ⟨hctr, ⟨e', he', _⟩, hmem⟩
    · rw [hcc]
      exact ⟨hb, le_refl _, by simp, by simp⟩
    · rcases hc : check_cache c uri ctr with ⟨c1, ctr1, opt1⟩
      rw [hc] at hctr he' hmem
      simp only at hctr he' hmem
      subst hctr
      rw [he']
      simp only
      refine ⟨?_, by omega, ?_, by simp⟩
      · intro e he
        rcases hmem e he with h | h
        · exact le_trans (hb e h) (by omega)
        · omega
      · intro t ht
        simp only [List.mem_singleton] at ht
        subst ht
        omega
  | adm uri size =>
    simp only [stepOp]
    by_cases hgt : size > MAX_OBJECT_SIZE
    · have : add_to_cache c uri size ctr = some (c, ctr) := by
        unfold add_to_cache
        rw [if_pos hgt]
      rw [this]
      simp only [hgt, if_pos]
      exact ⟨hb, le_refl _, by simp, by simp⟩
    · rcases hadd : add_to_cache c uri size ctr with _ | ⟨c', ctr'⟩
      · exact ⟨hb, le_refl _, by simp, by simp⟩
      · unfold add_to_cache at hadd
        rw [if_neg hgt] at hadd
        rcases hev : evictLoop (c.first.length + 1) size c with _ | c2
        · rw [hev] at hadd; cases hadd
        · rw [hev] at hadd
          simp only [Option.some.injEq, Prod.mk.injEq] at hadd
          obtain ⟨hc', hctr'⟩ := hadd
          subst hc'; subst hctr'
          simp only [hgt, if_neg, if_false]
          refine ⟨?_, by omega, ?_, by simp⟩
          · intro e he
            simp only [List.mem_cons] at he
            rcases he with he | he
            · simp [he]
            · have := hb e (evictLoop_mem _ size c c2 hev e he)
              omega
          · intro t ht
            simp only [List.mem_singleton] at ht
            subst ht
            omega

theorem runOps_facts (ops : List CacheOp) (s : Cache × Int)
    (hb : ∀ e ∈ s.1.first, e.access_time ≤ s.2) :
    (∀ e ∈ (runOps s ops).1.1.first, e.access_time ≤ (runOps s ops).1.2) ∧
    s.2 ≤ (runOps s ops).1.2 ∧
    (∀ t ∈ (runOps s ops).2, s.2 < t ∧ t ≤ (runOps s ops).1.2) ∧
    List.Pairwise (· < ·) (runOps s ops).2 := by
  induction ops generalizing s with
  | nil => exact ⟨hb, le_refl _, by simp [runOps], by simp [runOps]⟩
  | cons op rest ih =>
    obtain ⟨f1, f2, f3, f4⟩ := stepOp_facts s op hb
    obtain ⟨g1, g2, g3, g4⟩ := ih (stepOp s op).1 f1
    have hrun : runOps s (op :: rest) =
        ((runOps (stepOp s op).1 rest).1,
          (stepOp s op).2 ++ (runOps (stepOp s op).1 rest).2) := rfl
    rw [hrun]
    refine ⟨g1, le_trans f2 g2, ?_, ?_⟩
    · intro t ht
      rcases List.mem_append.mp ht with ht | ht
      · exact ⟨(f3 t ht).1, le_trans (f3 t ht).2 g2⟩
      · exact ⟨lt_of_le_of_lt f2 (g3 t ht).1, (g3 t ht).2⟩
    · rw [List.pairwise_append]
      refine ⟨f4, g4, ?_⟩
      intro a ha b hbb
      exact lt_of_le_of_lt (f3 a ha).2 (g3 b hbb).1

/-- C6: over any sequence of cache operations from the initial state,
the tick values assigned by `update_counter` are strictly increasing in
assignment order (so no two stamps of different updates are equal and
each stamp exceeds every earlier one), every cached `access_time` is at
most the current counter, and a further lookup hit stamps its entry with
`counter + 1`, strictly above every `access_time` in the cache —
including the entry's own prior value. -/
theorem tick_freshness (ops : List CacheOp) :
    List.Pairwise (· < ·) (runOps (initialize_cache, 0) ops).2 ∧
    (∀ e ∈ (runOps (initialize_cache, 0) ops).1.1.first,
      e.access_time ≤ (runOps (initialize_cache, 0) ops).1.2) ∧
    (∀ uri e',
      (check_cache (runOps (initialize_cache, 0) ops).1.1 uri
          (runOps (initialize_cache, 0) ops).1.2).2.2 = some e' →
      e'.access_time = (runOps (initialize_cache, 0) ops).1.2 + 1 ∧
      ∀ e ∈ (runOps (initialize_cache, 0) ops).1.1.first,
        e.access_time < e'.access_time) := by
  have h0 : ∀ e ∈ (initialize_cache, (0 : Int)).1.first,
      e.access_time ≤ (initialize_cache, (0 : Int)).2 := by
    intro e he
    simp [initialize_cache] at he
  obtain ⟨g1, _, _, g4⟩ := runOps_facts ops (initialize_cache, 0) h0
  refine ⟨g4, g1, ?_⟩
  intro uri e' he'
  rcases check_cache_cases (runOps (initialize_cache, 0) ops).1.1 uri
      (runOps (initialize_cache, 0) ops).1.2 with hcc | ⟨_, ⟨e'', he'', hstamp⟩, _⟩
  · rw [hcc] at he'; cases he'
  · rw [he''] at he'
    obtain rfl : e'' = e' := by injection he'
    refine ⟨hstamp, ?_⟩
    intro e he
    have := g1 e he
    omega

/-- Witness for C6 on a concrete operation sequence: admit then hit. -/
theorem tick_freshness_witness :
    List.Pairwise (· < ·)
      (runOps (initialize_cache, 0) [CacheOp.adm ("k".data) 4, CacheOp.look ("k".data)]).2 :=
  (tick_freshness [CacheOp.adm ("k".data) 4, CacheOp.look ("k".data)]).1

/-! ## Claim C9 — header discipline towards the origin -/

theorem suppressedLine_iff (l : List Char) :
    suppressedLine l =
      (("Host:".data).isPrefixOf l || ("User-Agent:".data).isPrefixOf l ||
       ("Connection:".data).isPrefixOf l || ("Proxy-Connection:".data).isPrefixOf l) := by
  have h1 : strncmp0 ("Host:".data) l 5 = ("Host:".data).isPrefixOf l :=
    strncmp0_length _ l
  have h2 : strncmp0 ("User-Agent:".data) l 11 = ("User-Agent:".data).isPrefixOf l :=
    strncmp0_length _ l
  have h3 : strncmp0 ("Connection:".data) l 11 = ("Connection:".data).isPrefixOf l :=
    strncmp0_length _ l
  have h4 : strncmp0 ("Proxy-Connection:".data) l 17 = ("Proxy-Connection:".data).isPrefixOf l :=
    strncmp0_length _ l
  unfold suppressedLine
  rw [h1, h2, h3, h4]

/-- The relay loop forwards exactly the not-suppressed client lines
before the blank line, in order. -/
theorem relayLines_eq_filter (cl : List (List Char)) :
    relayLines cl =
      (cl.takeWhile (fun l => l ≠ ("\r\n".data : List Char))).filter
        (fun l => !suppressedLine l) := by
  induction cl with
  | nil => rfl
  | cons l rest ih =>
    by_cases hcr : l = ("\r\n".data : List Char)
    · subst hcr
      simp [relayLines, List.takeWhile_cons]
    · by_cases hsup : suppressedLine l
      · simp [relayLines, List.takeWhile_cons, List.filter_cons, hcr, hsup, ih]
      · simp [relayLines, List.takeWhile_cons, List.filter_cons, hcr, hsup, ih]

theorem relayLines_not_suppressed (cl : List (List Char)) :
    ∀ l ∈ relayLines cl, suppressedLine l = false := by
  intro l hl
  rw [relayLines_eq_filter] at hl
  simpa using (List.mem_filter.mp hl).2

theorem extract_uri_request_header (uri : List Char) :
    (extract_uri uri).request_header =
      "GET ".data ++ (extract_uri uri).path ++ " HTTP/1.0\r\nHost: ".data ++
        (extract_uri uri).host ++ "\r\n".data := rfl

/-- C9: whatever the client sends, the byte stream the proxy writes to
the origin — the `extract_uri` prelude followed by the
`process_headers` output — contains exactly one line with each of the
prefixes `Host:` (built from the parsed URI), `User-Agent:`,
`Connection:` and `Proxy-Connection:`; the fixed headers precede every
relayed client line; the relayed lines are exactly the client lines
before the blank line whose case-sensitive prefix is none of those four,
verbatim and in order; the line block ends with a lone CRLF; and the
lines flatten to precisely the bytes written by the C code. -/
theorem header_discipline (uri : List Char) (clientLines : List (List Char)) :
    ((originLines (extract_uri uri).host (extract_uri uri).path clientLines).countP
        (fun l => ("Host:".data).isPrefixOf l) = 1) ∧
    ((originLines (extract_uri uri).host (extract_uri uri).path clientLines).countP
        (fun l => ("User-Agent:".data).isPrefixOf l) = 1) ∧
    ((originLines (extract_uri uri).host (extract_uri uri).path clientLines).countP
        (fun l => ("Connection:".data).isPrefixOf l) = 1) ∧
    ((originLines (extract_uri uri).host (extract_uri uri).path clientLines).countP
        (fun l => ("Proxy-Connection:".data).isPrefixOf l) = 1) ∧
    (relayLines clientLines =
      (clientLines.takeWhile (fun l => l ≠ ("\r\n".data : List Char))).filter
        (fun l => !suppressedLine l)) ∧
    (originLines (extract_uri uri).host (extract_uri uri).path clientLines =
      ("GET ".data ++ (extract_uri uri).path ++ " HTTP/1.0\r\n".data) ::
        ("Host: ".data ++ (extract_uri uri).host ++ "\r\n".data) ::
        user_agent :: connection_hdr :: proxy_connection :: relayLines clientLines ++
        [("\r\n".data : List Char)]) ∧
    ((originLines (extract_uri uri).host (extract_uri uri).path clientLines).getLast? =
      some ("\r\n".data : List Char)) ∧
    ((originLines (extract_uri uri).host (extract_uri uri).path clientLines).flatten =
      (extract_uri uri).request_header ++ user_agent ++ connection_hdr ++
        proxy_connection ++ (relayLines clientLines).flatten ++ "\r\n".data) := by
  have hrelay0 : ∀ l ∈ relayLines clientLines, suppressedLine l = false :=
    relayLines_not_suppressed clientLines
  have hHost0 : (relayLines clientLines).countP (fun l => ("Host:".data).isPrefixOf l) = 0 := by
    refine List.countP_eq_zero.mpr ?_
    intro a ha
    have := hrelay0 a ha
    rw [suppressedLine_iff] at this
    simp only [Bool.or_eq_false_iff] at this
    simp [this.1.1.1]
  have hUA0 : (relayLines clientLines).countP (fun l => ("User-Agent:".data).isPrefixOf l) = 0 := by
    refine List.countP_eq_zero.mpr ?_
    intro a ha
    have := hrelay0 a ha
    rw [suppressedLine_iff] at this
    simp only [Bool.or_eq_false_iff] at this
    simp [this.1.1.2]
  have hConn0 : (relayLines clientLines).countP (fun l => ("Connection:".data).isPrefixOf l) = 0 := by
    refine List.countP_eq_zero.mpr ?_
    intro a ha
    have := hrelay0 a ha
    rw [suppressedLine_iff] at this
    simp only [Bool.or_eq_false_iff] at this
    simp [this.1.2]
  have hPC0 : (relayLines clientLines).countP (fun l => ("Proxy-Connection:".data).isPrefixOf l) = 0 := by
    refine List.countP_eq_zero.mpr ?_
    intro a ha
    have := hrelay0 a ha
    rw [suppressedLine_iff] at this
    simp only [Bool.or_eq_false_iff] at this
    simp [this.2]
  refine ⟨?_, ?_, ?_, ?_, relayLines_eq_filter clientLines, by
      simp [originLines, process_headers], ?_, ?_⟩
  · simp only [originLines, process_headers, List.cons_append, List.countP_cons,
      List.countP_append, hHost0]
    simp [List.isPrefixOf, user_agent, connection_hdr, proxy_connection]
  · simp only [originLines, process_headers, List.cons_append, List.countP_cons,
      List.countP_append, hUA0]
    simp [List.isPrefixOf, user_agent, connection_hdr, proxy_connection]
  · simp only [originLines, process_headers, List.cons_append, List.countP_cons,
      List.countP_append, hConn0]
    simp [List.isPrefixOf, user_agent, connection_hdr, proxy_connection]
  · simp only [originLines, process_headers, List.cons_append, List.countP_cons,
      List.countP_append, hPC0]
    simp [List.isPrefixOf, user_agent, connection_hdr, proxy_connection]
  · rw [show originLines (extract_uri uri).host (extract_uri uri).path clientLines =
        (("GET ".data ++ (extract_uri uri).path ++ " HTTP/1.0\r\n".data) ::
          ("Host: ".data ++ (extract_uri uri).host ++ "\r\n".data) ::
          ([user_agent, connection_hdr, proxy_connection] ++ relayLines clientLines)) ++
          [("\r\n".data : List Char)] from by
      simp [originLines, process_headers]]
    rw [List.getLast?_concat]
  · simp only [originLines, process_headers, List.flatten_cons, List.flatten_append,
      List.flatten_nil, List.flatten, extract_uri_request_header]
    rw [show ([' ', 'H', 'T', 'T', 'P', '/', '1', '.', '0', '\x0d', '\n',
        'H', 'o', 's', 't', ':', ' '] : List Char) =
        [' ', 'H', 'T', 'T', 'P', '/', '1', '.', '0', '\x0d', '\n'] ++
          ['H', 'o', 's', 't', ':', ' '] from rfl]
    simp [List.append_assoc]

/-- Witness for C9 at a concrete URI and client header list containing a
suppressed `Host:` line, a suppressed lowercase-untouched `Connection:`
line, a forwarded line, the blank terminator, and a trailing line that
must be ignored. -/
theorem header_discipline_witness :
    ((originLines (extract_uri ("http://h/x".data)).host
        (extract_uri ("http://h/x".data)).path
        ["Host: evil\r\n".data, "Accept: */*\r\n".data, "\r\n".data, "After\r\n".data]).countP
        (fun l => ("Host:".data).isPrefixOf l) = 1) :=
  (header_discipline ("http://h/x".data)
    ["Host: evil\r\n".data, "Accept: */*\r\n".data, "\r\n".data, "After\r\n".data]).1

end Proxy
